import Mathlib

/- Verification of the commit/refactoring reconciliation pipeline of the
   msr-mining-challenge-2026 repository.

   The pipeline scripts (scripts/build_human_refactoring_commits.py,
   scripts/build_baseline_dataset.py, scripts/build_final_dataset.py,
   scripts/normalize_human_refactoring_commits.py and the scripts under
   scripts/analysis_scripts/) manipulate pandas DataFrames.  We embed each
   table as a list of typed rows, and each pandas operation the claims
   depend on as a list function:
     - drop_duplicates(subset=K, keep="first")  ->  dropDuplicatesBy
     - merge(on="sha", how="inner")             ->  innerMergeHuman
     - merge(on="sha", how="left") + fillna     ->  agentCommits
     - groupby(...).size() / transform("sum")   ->  refTypesByAgent
   Free-text columns that no claim mentions (urls, descriptions, location
   lists) are omitted from the row structures. -/

/-- Auxiliary loop for `dropDuplicatesBy`: `seen` is the list of keys already
emitted; a row whose key was seen is dropped. -/
def dropDupsAux {α κ : Type} [DecidableEq κ] (key : α → κ) : List κ → List α → List α
  | _, [] => []
  | seen, a :: l =>
      if key a ∈ seen then dropDupsAux key seen l
      else a :: dropDupsAux key (key a :: seen) l

/-- Embedding of pandas `DataFrame.drop_duplicates(subset=keys, keep="first")`:
keep the first occurrence per key in document order, drop the rest. -/
def dropDuplicatesBy {α κ : Type} [DecidableEq κ] (key : α → κ) (l : List α) : List α :=
  dropDupsAux key [] l

theorem mem_of_mem_dropDupsAux {α κ : Type} [DecidableEq κ] (key : α → κ) :
    ∀ (seen : List κ) (l : List α) (x : α), x ∈ dropDupsAux key seen l → x ∈ l := by
  intro seen l
  induction l generalizing seen with
  | nil => intro x h; simp [dropDupsAux] at h
  | cons a l ih =>
      intro x h
      rw [dropDupsAux] at h
      by_cases hs : key a ∈ seen
      · rw [if_pos hs] at h
        exact List.mem_cons_of_mem _ (ih seen x h)
      · rw [if_neg hs] at h
        rcases List.mem_cons.mp h with h | h
        · exact h ▸ List.mem_cons_self _ _
        · exact List.mem_cons_of_mem _ (ih _ x h)

theorem mem_of_mem_dropDuplicatesBy {α κ : Type} [DecidableEq κ] (key : α → κ)
    (l : List α) (x : α) (h : x ∈ dropDuplicatesBy key l) : x ∈ l :=
  mem_of_mem_dropDupsAux key [] l x h

theorem key_not_seen_of_mem_dropDupsAux {α κ : Type} [DecidableEq κ] (key : α → κ) :
    ∀ (seen : List κ) (l : List α) (x : α), x ∈ dropDupsAux key seen l → key x ∉ seen := by
  intro seen l
  induction l generalizing seen with
  | nil => intro x h; simp [dropDupsAux] at h
  | cons a l ih =>
      intro x h
      rw [dropDupsAux] at h
      by_cases hs : key a ∈ seen
      · rw [if_pos hs] at h
        exact ih seen x h
      · rw [if_neg hs] at h
        rcases List.mem_cons.mp h with h | h
        · exact h ▸ hs
        · intro hx
          exact ih _ x h (List.mem_cons_of_mem _ hx)

theorem nodup_keys_dropDupsAux {α κ : Type} [DecidableEq κ] (key : α → κ) :
    ∀ (seen : List κ) (l : List α), ((dropDupsAux key seen l).map key).Nodup := by
  intro seen l
  induction l generalizing seen with
  | nil => simp [dropDupsAux]
  | cons a l ih =>
      rw [dropDupsAux]
      by_cases hs : key a ∈ seen
      · rw [if_pos hs]; exact ih seen
      · rw [if_neg hs]
        simp only [List.map_cons, List.nodup_cons]
        refine ⟨fun hmem => ?_, ih _⟩
        rcases List.mem_map.mp hmem with ⟨x, hx, hkx⟩
        exact key_not_seen_of_mem_dropDupsAux key _ l x hx
          (hkx ▸ List.mem_cons_self _ _)

theorem nodup_keys_dropDuplicatesBy {α κ : Type} [DecidableEq κ] (key : α → κ)
    (l : List α) : ((dropDuplicatesBy key l).map key).Nodup :=
  nodup_keys_dropDupsAux key [] l

theorem dropDupsAux_eq_self {α κ : Type} [DecidableEq κ] (key : α → κ) :
    ∀ (seen : List κ) (l : List α), (l.map key).Nodup →
      (∀ x ∈ l, key x ∉ seen) → dropDupsAux key seen l = l := by
  intro seen l
  induction l generalizing seen with
  | nil => intro _ _; rfl
  | cons a l ih =>
      intro hnd hseen
      simp only [List.map_cons, List.nodup_cons] at hnd
      rw [dropDupsAux, if_neg (hseen a (List.mem_cons_self _ _))]
      congr 1
      refine ih _ hnd.2 fun x hx => ?_
      intro hmem
      rcases List.mem_cons.mp hmem with h | h
      · exact hnd.1 (h ▸ List.mem_map.mpr ⟨x, hx, rfl⟩)
      · exact hseen x (List.mem_cons_of_mem _ hx) h

theorem dropDuplicatesBy_eq_self_of_nodup {α κ : Type} [DecidableEq κ] (key : α → κ)
    (l : List α) (h : (l.map key).Nodup) : dropDuplicatesBy key l = l :=
  dropDupsAux_eq_self key [] l h (fun x _ => List.not_mem_nil (key x))

theorem dropDuplicatesBy_idem {α κ : Type} [DecidableEq κ] (key : α → κ) (l : List α) :
    dropDuplicatesBy key (dropDuplicatesBy key l) = dropDuplicatesBy key l :=
  dropDuplicatesBy_eq_self_of_nodup key _ (nodup_keys_dropDuplicatesBy key l)

theorem exists_key_mem_dropDupsAux {α κ : Type} [DecidableEq κ] (key : α → κ) :
    ∀ (seen : List κ) (l : List α) (x : α), x ∈ l → key x ∉ seen →
      ∃ y ∈ dropDupsAux key seen l, key y = key x := by
  intro seen l
  induction l generalizing seen with
  | nil => intro x h; exact absurd h (List.not_mem_nil x)
  | cons a l ih =>
      intro x hx hseen
      rw [dropDupsAux]
      by_cases hs : key a ∈ seen
      · rw [if_pos hs]
        rcases List.mem_cons.mp hx with h | h
        · exact absurd (h ▸ hseen) (fun hc => hc hs)
        · exact ih seen x h hseen
      · rw [if_neg hs]
        by_cases hk : key x = key a
        · exact ⟨a, List.mem_cons_self _ _, hk.symm⟩
        · rcases List.mem_cons.mp hx with h | h
          · exact absurd (congrArg key h) hk
          · rcases ih _ x h (by
              intro hmem
              rcases List.mem_cons.mp hmem with hm | hm
              · exact hk hm
              · exact hseen hm) with ⟨y, hy, hky⟩
            exact ⟨y, List.mem_cons_of_mem _ hy, hky⟩

theorem exists_key_mem_dropDuplicatesBy {α κ : Type} [DecidableEq κ] (key : α → κ)
    (l : List α) (x : α) (hx : x ∈ l) :
    ∃ y ∈ dropDuplicatesBy key l, key y = key x :=
  exists_key_mem_dropDupsAux key [] l x hx (List.not_mem_nil (key x))

theorem mem_dropDuplicatesBy_id {α : Type} [DecidableEq α]
    (l : List α) (x : α) (hx : x ∈ l) : x ∈ dropDuplicatesBy id l := by
  rcases exists_key_mem_dropDuplicatesBy id l x hx with ⟨y, hy, hyx⟩
  have hyx2 : y = x := hyx
  exact hyx2 ▸ hy

/- ------------------------------------------------------------------ -/
/- Identity normalization.

   Source: `df["sha"].astype(str).str.lower().str.strip()` and
   `str(c.get("sha1", "")).strip().lower()` in
   scripts/build_human_refactoring_commits.py (line 40, line 48),
   scripts/build_baseline_dataset.py (lines 54, 67) and `_norm_sha` in
   scripts/analysis_scripts/analyze_data.py (lines 61-67).  We model the
   ASCII behaviour of Python `str.strip()` / `str.lower()`. -/

/-- Strip leading and trailing whitespace from a character list. -/
def stripChars (l : List Char) : List Char :=
  ((l.dropWhile Char.isWhitespace).reverse.dropWhile Char.isWhitespace).reverse

/-- Embedding of `s.strip().lower()`, the identity normalization applied to
commit hashes. -/
def normSha (s : String) : String :=
  String.mk ((stripChars s.data).map Char.toLower)

example : normSha "  A3b " = "a3b" := by decide

example : dropDuplicatesBy id [1, 2, 1, 3, 2] = [1, 2, 3] := by decide

/- ------------------------------------------------------------------ -/
/- Ascending insertion sort on strings, the embedding of Python `sorted`
   (used for `sorted(set(...))` of type labels and `sorted(...)` of agent
   names).  Only membership and the empty case matter to the claims. -/

def insertAsc (s : String) : List String → List String
  | [] => [s]
  | t :: ts => if s < t then s :: t :: ts else t :: insertAsc s ts

def sortAsc (l : List String) : List String := l.foldr insertAsc []

theorem mem_insertAsc (s x : String) :
    ∀ l : List String, x ∈ insertAsc s l ↔ x = s ∨ x ∈ l := by
  intro l
  induction l with
  | nil => simp [insertAsc]
  | cons t ts ih =>
      rw [insertAsc]
      by_cases hst : s < t
      · rw [if_pos hst]; simp
      · rw [if_neg hst]
        simp only [List.mem_cons, ih]
        tauto

theorem mem_sortAsc (x : String) : ∀ l : List String, x ∈ sortAsc l ↔ x ∈ l := by
  intro l
  induction l with
  | nil => simp [sortAsc]
  | cons t ts ih =>
      simp only [sortAsc, List.foldr_cons] at ih ⊢
      rw [mem_insertAsc]
      simp [ih]

/- ------------------------------------------------------------------ -/
/- Record Normalizer.

   Source: the loop over `rm.get("commits", [])` in
   scripts/build_human_refactoring_commits.py lines 46-58 and
   scripts/build_baseline_dataset.py lines 63-93.  A tool-output commit
   entry carries a hash (`sha1`, possibly empty) and a list of
   refactorings; for the claims only the type label of each refactoring
   matters, so the refactorings of an entry are modelled as the list of their
   type labels ("" for a missing label).  Free-text columns (repository,
   url, description, location lists) are omitted. -/

structure RMEntry where
  sha1 : String
  refactorings : List String
deriving DecidableEq

/-- One row of the commit-level frame `rm_df` built by the normalizer loop. -/
structure RMCommitRow where
  sha : String
  refactoring_count : Nat
  unique_types : List String
  has_refactoring : Bool
deriving DecidableEq

/-- Embedding of `sorted({r.get("type") for r in refs if r.get("type")})`. -/
def uniqueTypes (refs : List String) : List String :=
  sortAsc (dropDuplicatesBy id (refs.filter (fun t => t ≠ "")))

/-- The commit record emitted for one tool-output entry: `none` when the
normalized hash is empty (the `if not sha: continue` skip). -/
def rmEntryRecord (c : RMEntry) : Option RMCommitRow :=
  if normSha c.sha1 = "" then none
  else some ⟨normSha c.sha1, c.refactorings.length, uniqueTypes c.refactorings,
             decide (0 < c.refactorings.length)⟩

/-- Embedding of the `rm_commits` list built by the normalizer loop. -/
def buildRmCommits (doc : List RMEntry) : List RMCommitRow :=
  doc.filterMap rmEntryRecord

/-- One row of the event table `ref_rows` of
scripts/build_baseline_dataset.py lines 83-93. -/
structure RefRow where
  commit_sha : String
  refactoring_type : String
deriving DecidableEq

/-- Embedding of the `ref_rows` event list: one row per refactoring of every
entry with a nonempty normalized hash. -/
def buildRefRows (doc : List RMEntry) : List RefRow :=
  doc.flatMap (fun c =>
    if normSha c.sha1 = "" then []
    else c.refactorings.map (fun t => ⟨normSha c.sha1, t⟩))

/- ------------------------------------------------------------------ -/
/- Human-population Metadata Joiner and Deduplicator.

   Source: scripts/build_human_refactoring_commits.py lines 39-80 and the
   identical scripts/build_baseline_dataset.py lines 53-121:
   `pr_df["sha"] = pr_df["sha"].astype(str).str.lower().str.strip()`,
   `rm_df = pd.DataFrame(rm_commits).drop_duplicates(subset=["sha"])`,
   `merged = pr_df.merge(rm_df, on="sha", how="inner")`,
   `merged["agent"] = "Human"`,
   `merged = merged.drop_duplicates(subset=["sha", "pr_id", "agent"])`. -/

structure PrRow where
  sha : String
  pr_id : Nat
  full_name : String
deriving DecidableEq

structure HumanCommitRow where
  sha : String
  pr_id : Nat
  full_name : String
  refactoring_count : Nat
  unique_types : List String
  has_refactoring : Bool
  agent : String
deriving DecidableEq

/-- The sha normalization applied to the candidate (PR commit) table before
the merge. -/
def normalizePrTable (pr : List PrRow) : List PrRow :=
  pr.map (fun p => { p with sha := normSha p.sha })

/-- Embedding of `pr_df.merge(rm_df, on="sha", how="inner")` followed by the
constant columns (`agent = "Human"`; the fillna calls are no-ops on the inner
join).  Pandas emits, for each left row in order, one output row per matching
right row. -/
def innerMergeHuman (pr : List PrRow) (rm : List RMCommitRow) : List HumanCommitRow :=
  pr.flatMap (fun p =>
    (rm.filter (fun r => r.sha = p.sha)).map (fun r =>
      ⟨p.sha, p.pr_id, p.full_name, r.refactoring_count, r.unique_types,
       r.has_refactoring, "Human"⟩))

/-- The deduplication `drop_duplicates(subset=["sha", "pr_id", "agent"])` of
the human commit table. -/
def dedupHumanByKey (rows : List HumanCommitRow) : List HumanCommitRow :=
  dropDuplicatesBy (fun r => (r.sha, r.pr_id, r.agent)) rows

/-- The full analyzed human commit table: normalize candidate hashes, dedup
tool output by sha, inner merge, dedup by (sha, pr_id, agent). -/
def humanCommitsTable (prRaw : List PrRow) (doc : List RMEntry) : List HumanCommitRow :=
  dedupHumanByKey
    (innerMergeHuman (normalizePrTable prRaw)
      (dropDuplicatesBy (fun r : RMCommitRow => r.sha) (buildRmCommits doc)))

/-- Total `refactoring_count` over the commit rows carrying one identifier
(the left side of the conservation property,
`sum(refactoring_count)` per sha group). -/
def sumCounts (rows : List HumanCommitRow) (s : String) : Nat :=
  ((rows.filter (fun r => r.sha = s)).map (fun r => r.refactoring_count)).sum

/-- The same total over the normalizer commit rows. -/
def sumCountsRm (rows : List RMCommitRow) (s : String) : Nat :=
  ((rows.filter (fun r => r.sha = s)).map (fun r => r.refactoring_count)).sum

/-- Number of event rows carrying one commit identifier (the right side of
the conservation property, `count(events)` per sha group). -/
def countEvents (ev : List RefRow) (s : String) : Nat :=
  (ev.filter (fun e => e.commit_sha = s)).length

/- ------------------------------------------------------------------ -/
/- Agent-population dataset builder.

   Source: scripts/build_final_dataset.py.  Lines 104-143: the event rows
   take `sha1` verbatim (no normalization, only the `if not commit_sha:
   continue` skip).  Lines 151-164: `agg = ref_df.groupby("sha").agg(...)`
   with `agg["has_refactoring"] = True`.  Lines 166-170: `commits =
   meta.merge(agg, on="sha", how="left")` followed by
   `fillna(False)` / `fillna(0)` / list fill for the three tool columns. -/

structure MetaRow where
  sha : String
  pr_id : Nat
  full_name : String
  agent : String
deriving DecidableEq

structure FinalRefRow where
  sha : String
  refactoring_type : String
deriving DecidableEq

/-- Embedding of the `ref_rows` loop of scripts/build_final_dataset.py:
commit hashes are used verbatim. -/
def buildRefRowsFinal (doc : List RMEntry) : List FinalRefRow :=
  doc.flatMap (fun c =>
    if c.sha1 = "" then []
    else c.refactorings.map (fun t => ⟨c.sha1, t⟩))

structure AggRow where
  sha : String
  refactoring_count : Nat
  unique_types : List String
deriving DecidableEq

/-- Embedding of `ref_df.groupby("sha").agg(refactoring_count=..., unique_types=...)`:
one row per distinct event sha (pandas sorts group keys; key order is
irrelevant to every claim, so first-occurrence order is kept here).  All agg
rows implicitly carry `has_refactoring = True`. -/
def aggFinal (ev : List FinalRefRow) : List AggRow :=
  (dropDuplicatesBy id (ev.map (fun r => r.sha))).map (fun s =>
    ⟨s, (ev.filter (fun r => r.sha = s)).length,
     sortAsc (dropDuplicatesBy id
       ((ev.filter (fun r => r.sha = s)).map (fun r => r.refactoring_type)))⟩)

structure AgCommitRow where
  sha : String
  pr_id : Nat
  full_name : String
  agent : String
  refactoring_count : Nat
  has_refactoring : Bool
  unique_types : List String
deriving DecidableEq

/-- Embedding of `meta.merge(agg, on="sha", how="left")` followed by
`commits["has_refactoring"].fillna(False)`,
`commits["refactoring_count"].fillna(0).astype(int)` and the list fill of
`unique_types`: every metadata row survives; unmatched rows get the
defaults, matched rows copy the agg columns (with `has_refactoring = True`). -/
def agentCommits (meta : List MetaRow) (agg : List AggRow) : List AgCommitRow :=
  meta.flatMap (fun m =>
    match agg.filter (fun a => a.sha = m.sha) with
    | [] => [⟨m.sha, m.pr_id, m.full_name, m.agent, 0, false, []⟩]
    | ms => ms.map (fun a =>
        ⟨m.sha, m.pr_id, m.full_name, m.agent, a.refactoring_count, true,
         a.unique_types⟩))

/-- The dedup of the agentic commit table,
`agentic.drop_duplicates(subset=["sha"], keep="first")` of
scripts/analysis_scripts/analyze_data.py line 71. -/
def dedupAgenticBySha (rows : List AgCommitRow) : List AgCommitRow :=
  dropDuplicatesBy (fun r => r.sha) rows

/- ------------------------------------------------------------------ -/
/- Completeness Reconciler.

   Source: scripts/normalize_human_refactoring_commits.py lines 49-83 and
   the identical scripts/build_baseline_dataset.py lines 159-184:
   `missing = baseline_df[~baseline_df["sha"].isin(human_df["sha"])]`,
   placeholder defaults for the three tool columns, then
   `updated_df = pd.concat([human_df, missing_df], ignore_index=True)`
   followed by `fillna(False).astype(bool)`, `fillna(0).astype(int)` and the
   list fill.  Columns of the analyzed table may hold nulls (pd.NA), hence
   the Option-typed fields. -/

structure BaselineRow where
  sha : String
  pr_id : Option Nat
  full_name : Option String
deriving DecidableEq

structure AnalyzedRow where
  sha : String
  pr_id : Option Nat
  full_name : Option String
  has_refactoring : Option Bool
  refactoring_count : Option Nat
  refactoring_types : Option (List String)
deriving DecidableEq

structure NormalizedRow where
  sha : String
  pr_id : Option Nat
  full_name : Option String
  has_refactoring : Bool
  refactoring_count : Nat
  refactoring_types : List String
deriving DecidableEq

/-- Embedding of `missing = baseline_df[~baseline_df["sha"].isin(human_df["sha"])]`
followed by the placeholder defaults (`has_refactoring = False`,
`refactoring_count = 0`, empty type list; metadata carried over). -/
def missingRows (baseline : List BaselineRow) (human : List AnalyzedRow) :
    List AnalyzedRow :=
  (baseline.filter (fun b => !(human.any (fun h => h.sha = b.sha)))).map
    (fun b => ⟨b.sha, b.pr_id, b.full_name, some false, some 0, some []⟩)

/-- The per-row effect of the post-concat cleanup fills
(`fillna(False)`, `fillna(0)`, list fill): nulls become defaults, non-null
values are kept. -/
def fillDefaults (h : AnalyzedRow) : NormalizedRow :=
  ⟨h.sha, h.pr_id, h.full_name, h.has_refactoring.getD false,
   h.refactoring_count.getD 0, h.refactoring_types.getD []⟩

/-- Embedding of `updated_df`: analyzed rows first, then the synthesized
placeholder rows, then the cleanup fills. -/
def updatedDf (baseline : List BaselineRow) (human : List AnalyzedRow) :
    List NormalizedRow :=
  (human ++ missingRows baseline human).map fillDefaults

/- ------------------------------------------------------------------ -/
/- Aggregation Engine: refactoring-type shares.

   Source: scripts/analysis_scripts/refactoring_types_by_agent.py lines
   87-94 and the identical scripts/analysis_scripts/analyze_data.py lines
   211-216: `ref_types_by_agent = ref_events.groupby(["agent",
   "refactoring_type"]).size()`, `agent_total = groupby("agent")["count"]
   .transform("sum")`, `share_pct = count / agent_total * 100`.  An event is
   modelled as its (agent, refactoring_type) pair. -/

/-- Embedding of `groupby(["agent", "refactoring_type"]).size()`: one row
per distinct (agent, type) pair with its number of occurrences (pandas sorts
group keys; key order is irrelevant to the claims). -/
def refTypesByAgent (ev : List (String × String)) : List ((String × String) × Nat) :=
  (dropDuplicatesBy id ev).map (fun k => (k, (ev.filter (fun e => e = k)).length))

/-- Embedding of `groupby("agent")["count"].transform("sum")`: the total
event count of one agent. -/
def agentTotal (ev : List (String × String)) (a : String) : Nat :=
  (((refTypesByAgent ev).filter (fun r => r.1.1 = a)).map (fun r => r.2)).sum

/-- Embedding of `share_pct = count / agent_total * 100` (exact rational
arithmetic in place of float). -/
def sharePct (count total : Nat) : ℚ := (count : ℚ) / (total : ℚ) * 100

/-- The sum of `share_pct` over all type rows of one agent. -/
def sumShares (ev : List (String × String)) (a : String) : ℚ :=
  (((refTypesByAgent ev).filter (fun r => r.1.1 = a)).map
    (fun r => sharePct r.2 (agentTotal ev a))).sum

/- ------------------------------------------------------------------ -/
/- Comparative Statistics block.

   Source: scripts/analysis_scripts/analyze_data.py lines 357-375.  A
   commit-table row is modelled as its (agent, refactoring_count) pair; the
   block emits a Kruskal-Wallis result iff all agent groups are nonempty and
   there is more than one group, and one Mann-Whitney result per sorted
   non-Human agent, skipped (silently, via `continue`) when the values of that agent
   or the Human values are empty.  The scipy statistics themselves
   are external; only which results are produced is modelled. -/

structure StatsOutcome where
  omnibus : Bool
  pairwise : List String
deriving DecidableEq

/-- Embedding of the omnibus guard, analyze_data.py line 361:
`if all(len(g) > 0 for g in groups) and len(groups) > 1`.  The
Kruskal-Wallis statistic is produced iff this is true. -/
def kruskalRuns (groups : List (List Nat)) : Bool :=
  groups.all (fun g => !g.isEmpty) && decide (1 < groups.length)

def agentsOf (combined : List (String × Nat)) : List String :=
  dropDuplicatesBy id (combined.map (fun e => e.1))

def statsOutcome (combined : List (String × Nat)) : StatsOutcome :=
  let agents := agentsOf combined
  let groups := agents.map (fun a =>
    (combined.filter (fun e => e.1 = a)).map (fun e => e.2))
  let hum := (combined.filter (fun e => e.1 = "Human")).map (fun e => e.2)
  let pairwise := (sortAsc (agents.filter (fun a => a ≠ "Human"))).filter
    (fun a =>
      !((combined.filter (fun e => e.1 = a)).map (fun e => e.2)).isEmpty
        && !hum.isEmpty)
  ⟨kruskalRuns groups, pairwise⟩

/- ------------------------------------------------------------------ -/
/- Zero-denominator guards.

   Source: scripts/analysis_scripts/refactoring_per_commit.py lines 36-40
   (`total_refactorings / refactoring_commits if refactoring_commits > 0
   else 0`) and scripts/analysis_scripts/analyze_data.py line 135
   (`human_analyzed_with_ref / human_pr_total * 100 if human_pr_total else
   0.0`), with exact rational arithmetic in place of float. -/

def refactorsPerRefactoringCommit (total_refactorings refactoring_commits : Nat) : ℚ :=
  if 0 < refactoring_commits
  then (total_refactorings : ℚ) / (refactoring_commits : ℚ)
  else 0

def humanNormRate (analyzed_with_ref human_pr_total : Nat) : ℚ :=
  if human_pr_total ≠ 0
  then (analyzed_with_ref : ℚ) / (human_pr_total : ℚ) * 100
  else 0

/- ------------------------------------------------------------------ -/
/- Generic counting lemmas used by several claims. -/

theorem length_filter_map_eq {α β : Type} (f : α → β) (p : β → Bool) (q : α → Bool)
    (hpq : ∀ a, p (f a) = q a) :
    ∀ l : List α, ((l.map f).filter p).length = (l.filter q).length := by
  intro l
  induction l with
  | nil => rfl
  | cons a t ih =>
      rw [List.map_cons, List.filter_cons, List.filter_cons, hpq a]
      cases q a <;> simp [ih]

theorem length_filter_eq_one_of_nodup_map {α κ : Type} [DecidableEq κ] (key : α → κ) :
    ∀ l : List α, (l.map key).Nodup → ∀ x ∈ l,
      (l.filter (fun a => key a = key x)).length = 1 := by
  intro l
  induction l with
  | nil => intro _ x hx; cases hx
  | cons a t ih =>
      intro h x hx
      simp only [List.map_cons, List.nodup_cons] at h
      rw [List.filter_cons]
      rcases List.mem_cons.mp hx with rfl | hxt
      · rw [if_pos (by simp)]
        have hnil : t.filter (fun b => key b = key x) = [] := by
          refine List.filter_eq_nil_iff.mpr fun b hb => ?_
          simp only [decide_eq_true_eq]
          intro hkb
          exact h.1 (List.mem_map.mpr ⟨b, hb, hkb⟩)
        simp [hnil]
      · have hne : key a ≠ key x := by
          intro he
          exact h.1 (he ▸ List.mem_map.mpr ⟨x, hxt, rfl⟩)
        rw [if_neg (by simpa using hne)]
        exact ih h.2 x hxt

theorem length_filter_le_one_of_nodup_map {α κ : Type} [DecidableEq κ] (key : α → κ) :
    ∀ l : List α, (l.map key).Nodup → ∀ k : κ,
      (l.filter (fun a => key a = k)).length ≤ 1 := by
  intro l
  induction l with
  | nil => intro _ k; simp
  | cons a t ih =>
      intro h k
      simp only [List.map_cons, List.nodup_cons] at h
      rw [List.filter_cons]
      by_cases hk : key a = k
      · rw [if_pos (by simpa using hk)]
        have hnil : t.filter (fun b => key b = k) = [] := by
          refine List.filter_eq_nil_iff.mpr fun b hb => ?_
          simp only [decide_eq_true_eq]
          intro hkb
          exact h.1 (hk ▸ hkb ▸ List.mem_map.mpr ⟨b, hb, rfl⟩)
        simp [hnil]
      · rw [if_neg (by simpa using hk)]
        exact ih h.2 k

theorem length_filter_pos_of_mem {α : Type} (p : α → Bool) (l : List α) (x : α)
    (hx : x ∈ l) (hp : p x = true) : 0 < (l.filter p).length :=
  List.length_pos.mpr (fun hnil => by
    have := List.mem_filter.mpr ⟨hx, hp⟩
    rw [hnil] at this
    exact List.not_mem_nil x this)

/- ------------------------------------------------------------------ -/
/- Claims. -/

/-- Claim C5: every tool-output commit object with a (nonempty, normalized)
identifier and an empty transformation list yields exactly one commit record,
placed at the position of the object, with `refactoring_count = 0`,
`has_refactoring = false` and an empty type list.
(scripts/build_human_refactoring_commits.py lines 46-58,
scripts/build_baseline_dataset.py lines 66-95.) -/
theorem normalizer_empty_commit (pre suf : List RMEntry) (c : RMEntry)
    (hid : normSha c.sha1 ≠ "") (hempty : c.refactorings = []) :
    buildRmCommits (pre ++ c :: suf)
      = buildRmCommits pre ++ ⟨normSha c.sha1, 0, [], false⟩ :: buildRmCommits suf := by
  unfold buildRmCommits
  rw [List.filterMap_append]
  congr 1
  have hrec : rmEntryRecord c = some ⟨normSha c.sha1, 0, [], false⟩ := by
    rw [rmEntryRecord, if_neg hid, hempty]
    rfl
  rw [List.filterMap_cons, hrec]

/-- Witness for C5 at a concrete input: the entry with hash " B " and no
refactorings yields exactly the one record ("b", 0, [], false). -/
theorem normalizer_empty_commit_witness :
    buildRmCommits [⟨" B ", []⟩] = [⟨"b", 0, [], false⟩] := by
  have h := normalizer_empty_commit [] [] ⟨" B ", []⟩ (by decide) rfl
  simp only [List.nil_append] at h
  rw [h]
  decide

/-- Claim C6: the Deduplicator (pandas drop_duplicates, keep="first") is
idempotent: rerunning it on its own output removes zero rows, both for the
agentic dedup keyed by sha (analyze_data.py line 71) and for the human dedup
keyed by (sha, pr_id, agent) (build_human_refactoring_commits.py line 80). -/
theorem dedup_idempotent (ag : List AgCommitRow) (hu : List HumanCommitRow) :
    dedupAgenticBySha (dedupAgenticBySha ag) = dedupAgenticBySha ag
    ∧ dedupHumanByKey (dedupHumanByKey hu) = dedupHumanByKey hu :=
  ⟨dropDuplicatesBy_idem _ ag, dropDuplicatesBy_idem _ hu⟩

/-- Claim C7 counterexample: the guarded per-group statistic returns the plain
number 0 on a zero-denominator group, the same value as for a genuine
zero-rate group, and the guarded normalized human rate likewise returns 0 when
the denominator is 0 - there is no NaN / "insufficient data" marker, so the
claim that a zero-commit group "never reports a silent 0%" is false.
(refactoring_per_commit.py lines 36-40, analyze_data.py line 135.) -/
theorem zero_division_guard_counterexample :
    refactorsPerRefactoringCommit 7 0 = 0
    ∧ refactorsPerRefactoringCommit 0 5 = 0
    ∧ humanNormRate 9 0 = 0 := by
  refine ⟨?_, ?_, ?_⟩ <;>
    simp [refactorsPerRefactoringCommit, humanNormRate]

/-- Claim C7 amended: a zero denominator never raises a division error - the
guards return the sentinel value 0 instead - and a positive denominator
produces the true quotient; the zero-denominator 0 is silent, carrying no
"insufficient data" marker. -/
theorem zero_division_guard_amended :
    (∀ t, refactorsPerRefactoringCommit t 0 = 0)
    ∧ (∀ w, humanNormRate w 0 = 0)
    ∧ (∀ t n, 0 < n → refactorsPerRefactoringCommit t n = (t : ℚ) / (n : ℚ))
    ∧ (∀ w n, n ≠ 0 → humanNormRate w n = (w : ℚ) / (n : ℚ) * 100) := by
  refine ⟨fun t => ?_, fun w => ?_, fun t n hn => ?_, fun w n hn => ?_⟩
  · simp [refactorsPerRefactoringCommit]
  · simp [humanNormRate]
  · rw [refactorsPerRefactoringCommit, if_pos hn]
  · rw [humanNormRate, if_pos hn]

/-- Witness for C7 at a concrete input: a group of 3 refactoring commits with
6 refactorings yields the quotient 2. -/
theorem zero_division_guard_witness :
    refactorsPerRefactoringCommit 6 3 = (6 : ℚ) / (3 : ℚ) :=
  zero_division_guard_amended.2.2.1 6 3 (by norm_num)

/-- Claim C10: the Completeness Reconciler only appends: the normalized table
is the analyzed rows (in order, before all synthesized rows) followed by the
placeholder rows, and the cleanup fills preserve the identifier and every
non-null `refactoring_count`, `has_refactoring` and type-list value of an
analyzed row.  (normalize_human_refactoring_commits.py lines 75-83,
build_baseline_dataset.py lines 181-184.) -/
theorem reconciler_frame (baseline : List BaselineRow) (human : List AnalyzedRow) :
    updatedDf baseline human
      = human.map fillDefaults ++ (missingRows baseline human).map fillDefaults
    ∧ ∀ h ∈ human, (fillDefaults h).sha = h.sha
        ∧ (∀ c, h.refactoring_count = some c → (fillDefaults h).refactoring_count = c)
        ∧ (∀ b, h.has_refactoring = some b → (fillDefaults h).has_refactoring = b)
        ∧ (∀ ts, h.refactoring_types = some ts → (fillDefaults h).refactoring_types = ts) := by
  refine ⟨List.map_append _ _ _, fun h _ => ⟨rfl, ?_, ?_, ?_⟩⟩ <;>
    exact fun v hv => by simp [fillDefaults, hv]

/-- Witness for C10 at a concrete input: an analyzed row with non-null count 2
keeps count 2 through the reconciler cleanup. -/
theorem reconciler_frame_witness :
    (fillDefaults ⟨"a", some 1, some "o", some true, some 2, some ["T"]⟩).refactoring_count
      = 2 := by
  have h := reconciler_frame [⟨"b", none, none⟩]
    [⟨"a", some 1, some "o", some true, some 2, some ["T"]⟩]
  exact (h.2 _ (List.mem_singleton_self _)).2.1 2 rfl

/- Counting rows by sha through the Completeness Reconciler. -/

theorem missingRows_count (baseline : List BaselineRow) (human : List AnalyzedRow)
    (s : String) :
    ((missingRows baseline human).filter (fun r => r.sha = s)).length
      = if human.any (fun h => h.sha = s)
        then 0
        else (baseline.filter (fun b => b.sha = s)).length := by
  rw [missingRows,
    length_filter_map_eq _ _ (fun b => decide (b.sha = s)) (fun a => rfl),
    List.filter_filter]
  by_cases hany : human.any (fun h => h.sha = s) = true
  · rw [if_pos hany]
    have hnil : baseline.filter
        (fun b => decide (b.sha = s) && !(human.any (fun h => h.sha = b.sha))) = [] := by
      refine List.filter_eq_nil_iff.mpr fun b _ => ?_
      simp only [Bool.and_eq_true, decide_eq_true_eq, Bool.not_eq_true']
      rintro ⟨hbs, hanyb⟩
      rw [hbs, hany] at hanyb
      cases hanyb
    simp [hnil]
  · rw [if_neg hany]
    congr 1
    refine List.filter_congr fun b _ => ?_
    by_cases hbs : b.sha = s
    · show (decide (b.sha = s) && !(human.any fun h => decide (h.sha = b.sha)))
          = decide (b.sha = s)
      rw [hbs, Bool.eq_false_iff.mpr hany]
      simp
    · show (decide (b.sha = s) && !(human.any fun h => decide (h.sha = b.sha)))
          = decide (b.sha = s)
      simp [hbs]

theorem updatedDf_count (baseline : List BaselineRow) (human : List AnalyzedRow)
    (s : String) :
    ((updatedDf baseline human).filter (fun r => r.sha = s)).length
      = (human.filter (fun h => h.sha = s)).length
        + (if human.any (fun h => h.sha = s)
           then 0
           else (baseline.filter (fun b => b.sha = s)).length) := by
  rw [updatedDf, List.map_append, List.filter_append, List.length_append]
  congr 1
  · exact length_filter_map_eq fillDefaults _ (fun h => decide (h.sha = s))
      (fun a => rfl) human
  · rw [length_filter_map_eq fillDefaults _ (fun r => decide (r.sha = s))
      (fun a => rfl)]
    exact missingRows_count baseline human s

/-- Claim C1 counterexample: with a candidate table listing the identifier "a"
twice (one commit in two pull requests) and an empty analyzed table, the
normalized table of the Completeness Reconciler contains two rows with
identifier "a", not exactly one - the claim as stated is false.
(normalize_human_refactoring_commits.py lines 49-75,
build_baseline_dataset.py lines 159-184.) -/
theorem completeness_counterexample :
    ((updatedDf [⟨"a", none, none⟩, ⟨"a", none, none⟩] []).filter
      (fun r => r.sha = "a")).length = 2 := by decide

/-- Claim C1 amended: every candidate identifier appears in the normalized
table at least once (no omissions, unconditionally), and exactly once
provided the candidate identifiers are pairwise distinct and the analyzed
table holds at most one row per identifier. -/
theorem completeness_amended (baseline : List BaselineRow) (human : List AnalyzedRow) :
    (∀ b ∈ baseline,
        1 ≤ ((updatedDf baseline human).filter (fun r => r.sha = b.sha)).length)
    ∧ ((baseline.map (fun b => b.sha)).Nodup →
        (∀ s : String, (human.filter (fun h => h.sha = s)).length ≤ 1) →
        ∀ b ∈ baseline,
          ((updatedDf baseline human).filter (fun r => r.sha = b.sha)).length = 1) := by
  constructor
  · intro b hb
    rw [updatedDf_count]
    by_cases hany : human.any (fun h => h.sha = b.sha) = true
    · rw [if_pos hany]
      rcases List.any_eq_true.mp hany with ⟨h, hh, hhs⟩
      have := length_filter_pos_of_mem (fun h => decide (h.sha = b.sha)) human h hh hhs
      omega
    · rw [if_neg hany]
      have := length_filter_pos_of_mem (fun x : BaselineRow => decide (x.sha = b.sha))
        baseline b hb (by simp)
      omega
  · intro hnd hle b hb
    rw [updatedDf_count]
    by_cases hany : human.any (fun h => h.sha = b.sha) = true
    · rw [if_pos hany]
      rcases List.any_eq_true.mp hany with ⟨h, hh, hhs⟩
      have h1 := length_filter_pos_of_mem (fun h => decide (h.sha = b.sha)) human h hh hhs
      have h2 := hle b.sha
      omega
    · rw [if_neg hany]
      have h0 : (human.filter (fun h => h.sha = b.sha)).length = 0 := by
        have hne : human.filter (fun h => h.sha = b.sha) = [] := by
          refine List.filter_eq_nil_iff.mpr fun h hh => ?_
          intro hhs
          exact hany (List.any_eq_true.mpr ⟨h, hh, hhs⟩)
        rw [hne]
        rfl
      have h1 : (baseline.filter (fun x => x.sha = b.sha)).length = 1 :=
        length_filter_eq_one_of_nodup_map (fun b : BaselineRow => b.sha)
          baseline hnd b hb
      omega

/-- Witness for C1 at a concrete input: a single candidate "a" and an empty
analyzed table yield exactly one normalized row with identifier "a". -/
theorem completeness_witness :
    ((updatedDf [⟨"a", none, none⟩] []).filter (fun r => r.sha = "a")).length = 1 :=
  (completeness_amended [⟨"a", none, none⟩] []).2 (by decide)
    (fun s => by simp) ⟨"a", none, none⟩ (List.mem_singleton_self _)

/-- Claim C2 counterexample: the agent-population builder
(build_final_dataset.py lines 166-170) joins metadata against the tool
output with how="left" and fills zeros: a metadata commit absent from the
tool output ("a" here, empty agg table) still appears in the analyzed
commits table, with refactoring_count 0 - falsifying the claim that a
commit appears iff it is present in both inputs and that unprocessed
commits are excluded rather than zero-filled. -/
theorem metadata_joiner_counterexample :
    agentCommits [⟨"a", 1, "o/r", "Codex"⟩] []
      = [⟨"a", 1, "o/r", "Codex", 0, false, []⟩] := by decide

/-- Claim C2 amended: the human-population joiner
(build_human_refactoring_commits.py line 65) is an inner join - a commit
identifier appears in its output iff it appears in both the candidate
metadata table and the tool-output commit table - while the agent-population
builder (build_final_dataset.py lines 166-170) is a left join on the
metadata: every metadata row survives, a commit with no tool-output match
appearing with refactoring_count 0 and has_refactoring false, and every
output row stems from a metadata row. -/
theorem metadata_joiner_amended (s : String) (pr : List PrRow) (rm : List RMCommitRow)
    (meta : List MetaRow) (agg : List AggRow) :
    ((∃ r ∈ innerMergeHuman pr rm, r.sha = s)
      ↔ (∃ p ∈ pr, p.sha = s) ∧ (∃ q ∈ rm, q.sha = s))
    ∧ (∀ m ∈ meta, agg.filter (fun a => a.sha = m.sha) = [] →
        (⟨m.sha, m.pr_id, m.full_name, m.agent, 0, false, []⟩ : AgCommitRow)
          ∈ agentCommits meta agg)
    ∧ (∀ r ∈ agentCommits meta agg, ∃ m ∈ meta, m.sha = r.sha) := by
  refine ⟨⟨?_, ?_⟩, ?_, ?_⟩
  · rintro ⟨r, hr, hrs⟩
    rw [innerMergeHuman] at hr
    rcases List.mem_flatMap.mp hr with ⟨p, hp, hrp⟩
    rcases List.mem_map.mp hrp with ⟨q, hq, hqr⟩
    have hqf := List.mem_filter.mp hq
    have hqsha : q.sha = p.sha := by simpa using hqf.2
    have hps : p.sha = s := by rw [← hrs, ← hqr]
    exact ⟨⟨p, hp, hps⟩, ⟨q, hqf.1, hqsha.trans hps⟩⟩
  · rintro ⟨⟨p, hp, hps⟩, ⟨q, hq, hqs⟩⟩
    refine ⟨⟨p.sha, p.pr_id, p.full_name, q.refactoring_count, q.unique_types,
      q.has_refactoring, "Human"⟩, ?_, hps⟩
    rw [innerMergeHuman]
    refine List.mem_flatMap.mpr ⟨p, hp, ?_⟩
    refine List.mem_map.mpr ⟨q, ?_, rfl⟩
    exact List.mem_filter.mpr ⟨hq, by simp [hqs, hps]⟩
  · intro m hm hfilter
    rw [agentCommits]
    refine List.mem_flatMap.mpr ⟨m, hm, ?_⟩
    rw [hfilter]
    exact List.mem_singleton_self _
  · intro r hr
    rw [agentCommits] at hr
    rcases List.mem_flatMap.mp hr with ⟨m, hm, hrm⟩
    refine ⟨m, hm, ?_⟩
    rcases hcase : agg.filter (fun a => a.sha = m.sha) with _ | ⟨a, as⟩
    · rw [hcase] at hrm
      have hr2 : r = ⟨m.sha, m.pr_id, m.full_name, m.agent, 0, false, []⟩ :=
        List.mem_singleton.mp hrm
      rw [hr2]
    · rw [hcase] at hrm
      rcases List.mem_map.mp hrm with ⟨x, _, hxr⟩
      rw [← hxr]

/-- Witness for C2 at a concrete input: the metadata commit "b" with an empty
tool output appears in the agent commit table zero-filled. -/
theorem metadata_joiner_witness :
    (⟨"b", 2, "o/s", "Copilot", 0, false, []⟩ : AgCommitRow)
      ∈ agentCommits [⟨"b", 2, "o/s", "Copilot"⟩] [] :=
  (metadata_joiner_amended "b" [] [] [⟨"b", 2, "o/s", "Copilot"⟩] []).2.1 _
    (List.mem_singleton_self _) rfl

/- Membership of the record built for a document entry. -/

theorem rmRecord_mem (doc : List RMEntry) (c : RMEntry) (hc : c ∈ doc)
    (hne : normSha c.sha1 ≠ "") :
    (⟨normSha c.sha1, c.refactorings.length, uniqueTypes c.refactorings,
      decide (0 < c.refactorings.length)⟩ : RMCommitRow) ∈ buildRmCommits doc := by
  rw [buildRmCommits]
  refine List.mem_filterMap.mpr ⟨c, hc, ?_⟩
  rw [rmEntryRecord, if_neg hne]

/-- Claim C4 counterexample: the agent-population builder
(build_final_dataset.py lines 85-141) takes commit identifiers verbatim from
both inputs and joins without normalizing: metadata identifier "a" and
tool-output identifier "A" differ only in letter case, yet the join does not
match them - the commit comes out zero-filled although the tool reported one
refactoring for it.  This falsifies the claim that normalization is applied
to every identifier column of every source table before any join. -/
theorem identity_normalization_counterexample :
    agentCommits [⟨"a", 1, "o/r", "Codex"⟩]
        (aggFinal (buildRefRowsFinal [⟨"A", ["Extract Method"]⟩]))
      = [⟨"a", 1, "o/r", "Codex", 0, false, []⟩]
    ∧ normSha "A" = normSha "a" := by decide

/-- Claim C4 amended: the human-population builder normalizes (lower-case,
strip) the identifier columns of both of its inputs before joining, so a
candidate row and a tool-output entry whose raw identifiers agree after
normalization are matched by its join; the agent-population builder joins on
verbatim identifiers (see the counterexample), the identifiers only being
re-normalized later in the analysis scripts. -/
theorem identity_normalization_amended
    (prRaw : List PrRow) (doc : List RMEntry) (p : PrRow) (c : RMEntry)
    (hp : p ∈ prRaw) (hc : c ∈ doc)
    (heq : normSha p.sha = normSha c.sha1) (hne : normSha c.sha1 ≠ "") :
    ∃ r ∈ humanCommitsTable prRaw doc, r.sha = normSha c.sha1 := by
  have hq0 := rmRecord_mem doc c hc hne
  rcases exists_key_mem_dropDuplicatesBy (fun r : RMCommitRow => r.sha) _ _ hq0
    with ⟨q, hq, hqsha⟩
  have hp' : ({ p with sha := normSha p.sha } : PrRow) ∈ normalizePrTable prRaw :=
    List.mem_map.mpr ⟨p, hp, rfl⟩
  have hmerged : (⟨normSha p.sha, p.pr_id, p.full_name, q.refactoring_count,
      q.unique_types, q.has_refactoring, "Human"⟩ : HumanCommitRow)
      ∈ innerMergeHuman (normalizePrTable prRaw)
          (dropDuplicatesBy (fun r : RMCommitRow => r.sha) (buildRmCommits doc)) := by
    rw [innerMergeHuman]
    refine List.mem_flatMap.mpr ⟨_, hp', ?_⟩
    refine List.mem_map.mpr ⟨q, ?_, rfl⟩
    refine List.mem_filter.mpr ⟨hq, ?_⟩
    simp only [decide_eq_true_eq]
    show q.sha = normSha p.sha
    rw [hqsha, heq]
  rcases exists_key_mem_dropDuplicatesBy
      (fun r : HumanCommitRow => (r.sha, r.pr_id, r.agent)) _ _ hmerged
    with ⟨r, hr, hkey⟩
  refine ⟨r, ?_, ?_⟩
  · rw [humanCommitsTable, dedupHumanByKey]
    exact hr
  · have hsha : r.sha = normSha p.sha := congrArg Prod.fst hkey
    rw [hsha, heq]

/-- Witness for C4 at a concrete input: candidate identifier "A" and tool
identifier " a " agree after normalization and are matched by the human
pipeline, producing a row with the normalized identifier. -/
theorem identity_normalization_witness :
    (humanCommitsTable [⟨"A", 1, "or"⟩] [⟨" a ", ["T"]⟩]).any
      (fun r => r.sha = normSha " a ") = true := by
  rcases identity_normalization_amended [⟨"A", 1, "or"⟩] [⟨" a ", ["T"]⟩]
      ⟨"A", 1, "or"⟩ ⟨" a ", ["T"]⟩ (List.mem_singleton_self _)
      (List.mem_singleton_self _) (by decide) (by decide) with ⟨r, hr, hsha⟩
  exact List.any_eq_true.mpr ⟨r, hr, by simp [hsha]⟩

/- Summation lemmas for the share computation. -/

theorem sum_map_sharePct (T : Nat) :
    ∀ L : List Nat, (L.map (fun c => sharePct c T)).sum
      = ((L.sum : ℚ)) / (T : ℚ) * 100 := by
  intro L
  induction L with
  | nil => simp [sharePct]
  | cons c t ih =>
      rw [List.map_cons, List.sum_cons, ih, List.sum_cons, sharePct]
      push_cast
      ring

theorem agentTotal_pos (ev : List (String × String)) (a : String)
    (h : ∃ e ∈ ev, e.1 = a) : 0 < agentTotal ev a := by
  rcases h with ⟨e, he, hea⟩
  have hek : e ∈ dropDuplicatesBy id ev := mem_dropDuplicatesBy_id ev e he
  have hrow : (e, (ev.filter (fun x => x = e)).length) ∈ refTypesByAgent ev :=
    List.mem_map.mpr ⟨e, hek, rfl⟩
  have hrowf : (e, (ev.filter (fun x => x = e)).length)
      ∈ (refTypesByAgent ev).filter (fun r => r.1.1 = a) :=
    List.mem_filter.mpr ⟨hrow, by simp [hea]⟩
  have hcnt : 0 < (ev.filter (fun x => x = e)).length :=
    length_filter_pos_of_mem _ ev e he (by simp)
  have hmem2 : (ev.filter (fun x => x = e)).length
      ∈ ((refTypesByAgent ev).filter (fun r => r.1.1 = a)).map (fun r => r.2) :=
    List.mem_map.mpr ⟨_, hrowf, rfl⟩
  exact Nat.lt_of_lt_of_le hcnt
    (List.single_le_sum (fun x _ => Nat.zero_le x) _ hmem2)

/-- Claim C8: for every grouping key with at least one transformation event
(here the by-agent grouping computed identically in analyze_data.py lines
211-216 and refactoring_types_by_agent.py lines 87-94), the share_pct values
over all transformation types observed in the group sum to exactly 100 in
exact rational arithmetic. -/
theorem share_normalization (ev : List (String × String)) (a : String)
    (h : ∃ e ∈ ev, e.1 = a) : sumShares ev a = 100 := by
  have hT := agentTotal_pos ev a h
  have hT0 : ((agentTotal ev a : ℕ) : ℚ) ≠ 0 :=
    Nat.cast_ne_zero.mpr (Nat.pos_iff_ne_zero.mp hT)
  rw [sumShares]
  have hmm : ((refTypesByAgent ev).filter (fun r => r.1.1 = a)).map
      (fun r => sharePct r.2 (agentTotal ev a))
    = (((refTypesByAgent ev).filter (fun r => r.1.1 = a)).map (fun r => r.2)).map
      (fun c => sharePct c (agentTotal ev a)) := by
    rw [List.map_map]
    rfl
  rw [hmm, sum_map_sharePct]
  have hsum : (((refTypesByAgent ev).filter (fun r => r.1.1 = a)).map
      (fun r => r.2)).sum = agentTotal ev a := rfl
  rw [hsum, div_self hT0, one_mul]

/-- Witness for C8 at a concrete input: two events of distinct types for one
agent; the two 50 percent shares sum to 100. -/
theorem share_normalization_witness :
    sumShares [("Codex", "Extract Method"), ("Codex", "Rename Method")] "Codex"
      = 100 :=
  share_normalization _ "Codex" ⟨("Codex", "Extract Method"),
    List.mem_cons_self _ _, rfl⟩

/-- Claim C9 counterexample: the omnibus guard skips the whole Kruskal-Wallis
test as soon as any group is empty - the first conjunct shows that with an
empty third group no omnibus result is produced at all, although the second
conjunct shows the remaining two nonempty groups alone would be tested.  The
empty group is thus not "excluded from the test" with the test still running,
and the block prints no exclusion report (its only outputs are result lines),
so the claim as stated is false.  (analyze_data.py lines 357-375.) -/
theorem comparative_stats_counterexample :
    kruskalRuns [[1], [2], []] = false ∧ kruskalRuns [[1], [2]] = true := by
  decide

/-- Claim C9 amended: no test result is ever produced from an empty group -
the omnibus test is skipped entirely whenever some group is empty, and a
pairwise Mann-Whitney result is emitted only for a non-Human agent with at
least one observation and only when the Human reference group has at least
one observation; the skips are silent (no exclusion report exists). -/
theorem comparative_stats_amended (combined : List (String × Nat))
    (groups : List (List Nat)) :
    ([] ∈ groups → kruskalRuns groups = false)
    ∧ (∀ a ∈ (statsOutcome combined).pairwise,
        a ≠ "Human" ∧ (combined.filter (fun e => e.1 = a)) ≠ [])
    ∧ ((statsOutcome combined).pairwise ≠ [] →
        (combined.filter (fun e => e.1 = "Human")) ≠ []) := by
  refine ⟨?_, ?_, ?_⟩
  · intro hmem
    have h1 : groups.all (fun g => !g.isEmpty) = false := by
      refine Bool.eq_false_iff.mpr fun hall => ?_
      have := List.all_eq_true.mp hall [] hmem
      simp at this
    rw [kruskalRuns, h1, Bool.false_and]
  · intro a ha
    have ha2 : a ∈ (sortAsc ((agentsOf combined).filter (fun x => x ≠ "Human"))).filter
        (fun x =>
          !((combined.filter (fun e => e.1 = x)).map (fun e => e.2)).isEmpty
            && !((combined.filter (fun e => e.1 = "Human")).map
                  (fun e => e.2)).isEmpty) := ha
    have hmemf := List.mem_filter.mp ha2
    have hane : a ≠ "Human" := by
      have hs := (mem_sortAsc a _).mp hmemf.1
      have hf := List.mem_filter.mp hs
      simpa using hf.2
    refine ⟨hane, ?_⟩
    have hcond := hmemf.2
    simp only [Bool.and_eq_true, Bool.not_eq_true'] at hcond
    intro hnil
    rw [hnil] at hcond
    simp at hcond
  · intro hne
    have hne2 : (sortAsc ((agentsOf combined).filter (fun x => x ≠ "Human"))).filter
        (fun x =>
          !((combined.filter (fun e => e.1 = x)).map (fun e => e.2)).isEmpty
            && !((combined.filter (fun e => e.1 = "Human")).map
                  (fun e => e.2)).isEmpty) ≠ [] := hne
    rcases List.exists_mem_of_ne_nil _ hne2 with ⟨a, ha⟩
    have hcond := (List.mem_filter.mp ha).2
    simp only [Bool.and_eq_true, Bool.not_eq_true'] at hcond
    intro hnil
    rw [hnil] at hcond
    simp at hcond

/-- Witness for C9 at a concrete input: agent "A" with one observation and a
nonempty Human reference group yields a pairwise result for "A" only. -/
theorem comparative_stats_witness :
    "A" ≠ "Human" ∧ ([("Human", 1), ("A", 2)].filter (fun e => e.1 = "A")) ≠ [] :=
  (comparative_stats_amended [("Human", 1), ("A", 2)] []).2.1 "A" (by decide)

/- ------------------------------------------------------------------ -/
/- Conservation (C3): lemmas relating the commit sums to the event counts. -/

theorem countEvents_block (sha1 : String) (s : String) :
    ∀ refs : List String,
      countEvents (refs.map (fun t =>
        ({ commit_sha := sha1, refactoring_type := t } : RefRow))) s
      = if sha1 = s then refs.length else 0 := by
  intro refs
  induction refs with
  | nil => simp [countEvents]
  | cons t ts ih =>
      rw [countEvents] at ih ⊢
      simp only [List.map_cons, List.filter_cons]
      by_cases h : sha1 = s
      · rw [if_pos (by simpa using h), List.length_cons, ih, if_pos h, if_pos h,
          List.length_cons]
      · rw [if_neg (by simpa using h), ih, if_neg h, if_neg h]

theorem countEvents_append (l1 l2 : List RefRow) (s : String) :
    countEvents (l1 ++ l2) s = countEvents l1 s + countEvents l2 s := by
  rw [countEvents, countEvents, countEvents, List.filter_append, List.length_append]

theorem sumCountsRm_buildRmCommits (s : String) :
    ∀ doc : List RMEntry,
      sumCountsRm (buildRmCommits doc) s = countEvents (buildRefRows doc) s := by
  intro doc
  induction doc with
  | nil => rfl
  | cons c d ih =>
      have hbre : buildRefRows (c :: d)
          = (if normSha c.sha1 = "" then []
             else c.refactorings.map (fun t => ⟨normSha c.sha1, t⟩))
            ++ buildRefRows d := by
        rw [buildRefRows, List.flatMap_cons]
        rfl
      rw [hbre, countEvents_append, buildRmCommits, List.filterMap_cons]
      by_cases hc : normSha c.sha1 = ""
      · rw [rmEntryRecord, if_pos hc]
        simp only [if_pos hc]
        have : countEvents [] s = 0 := rfl
        rw [this]
        simpa [buildRmCommits] using ih
      · rw [rmEntryRecord, if_neg hc]
        simp only [if_neg hc]
        rw [countEvents_block _ _ c.refactorings, sumCountsRm, List.filter_cons]
        have ih2 : ((List.filter (fun r => decide (r.sha = s))
              (List.filterMap rmEntryRecord d)).map
            (fun r => r.refactoring_count)).sum = countEvents (buildRefRows d) s := ih
        by_cases hts : normSha c.sha1 = s
        · rw [if_pos (by simpa using hts), if_pos hts]
          simp only [List.map_cons, List.sum_cons]
          rw [ih2]
        · rw [if_neg (by simpa using hts), if_neg hts, ih2]
          omega

theorem sumCounts_append (l1 l2 : List HumanCommitRow) (s : String) :
    sumCounts (l1 ++ l2) s = sumCounts l1 s + sumCounts l2 s := by
  rw [sumCounts, sumCounts, sumCounts, List.filter_append, List.map_append,
    List.sum_append]

theorem sumCounts_block (p : PrRow) (rm : List RMCommitRow) (s : String) :
    sumCounts ((rm.filter (fun r => r.sha = p.sha)).map (fun r =>
      ({ sha := p.sha, pr_id := p.pr_id, full_name := p.full_name,
         refactoring_count := r.refactoring_count, unique_types := r.unique_types,
         has_refactoring := r.has_refactoring, agent := "Human" } : HumanCommitRow))) s
      = if p.sha = s then sumCountsRm rm s else 0 := by
  by_cases h : p.sha = s
  · rw [if_pos h, sumCounts]
    have hall : ((rm.filter (fun r => r.sha = p.sha)).map (fun r =>
        ({ sha := p.sha, pr_id := p.pr_id, full_name := p.full_name,
           refactoring_count := r.refactoring_count, unique_types := r.unique_types,
           has_refactoring := r.has_refactoring, agent := "Human" } : HumanCommitRow))).filter
          (fun r => r.sha = s)
        = (rm.filter (fun r => r.sha = p.sha)).map (fun r =>
        ({ sha := p.sha, pr_id := p.pr_id, full_name := p.full_name,
           refactoring_count := r.refactoring_count, unique_types := r.unique_types,
           has_refactoring := r.has_refactoring, agent := "Human" } : HumanCommitRow)) := by
      refine List.filter_eq_self.mpr fun x hx => ?_
      rcases List.mem_map.mp hx with ⟨r, _, hrx⟩
      rw [← hrx]
      simpa using h
    rw [hall, List.map_map, h]
    rfl
  · rw [if_neg h, sumCounts]
    have hnil : ((rm.filter (fun r => r.sha = p.sha)).map (fun r =>
        ({ sha := p.sha, pr_id := p.pr_id, full_name := p.full_name,
           refactoring_count := r.refactoring_count, unique_types := r.unique_types,
           has_refactoring := r.has_refactoring, agent := "Human" } : HumanCommitRow))).filter
          (fun r => r.sha = s) = [] := by
      refine List.filter_eq_nil_iff.mpr fun x hx => ?_
      rcases List.mem_map.mp hx with ⟨r, _, hrx⟩
      rw [← hrx]
      simpa using h
    rw [hnil]
    rfl

theorem innerMergeHuman_cons (p : PrRow) (pr : List PrRow) (rm : List RMCommitRow) :
    innerMergeHuman (p :: pr) rm
      = ((rm.filter (fun r => r.sha = p.sha)).map (fun r =>
          ({ sha := p.sha, pr_id := p.pr_id, full_name := p.full_name,
             refactoring_count := r.refactoring_count, unique_types := r.unique_types,
             has_refactoring := r.has_refactoring, agent := "Human" } : HumanCommitRow)))
        ++ innerMergeHuman pr rm := by
  rw [innerMergeHuman, List.flatMap_cons]
  rfl

theorem sumCounts_innerMerge (rm : List RMCommitRow) (s : String) :
    ∀ pr : List PrRow, sumCounts (innerMergeHuman pr rm) s
      = (pr.filter (fun p => p.sha = s)).length * sumCountsRm rm s := by
  intro pr
  induction pr with
  | nil => simp [innerMergeHuman, sumCounts]
  | cons p pr ih =>
      rw [innerMergeHuman_cons, sumCounts_append, sumCounts_block, ih,
        List.filter_cons]
      by_cases h : p.sha = s
      · rw [if_pos h, if_pos (by simpa using h), List.length_cons, Nat.succ_mul]
        omega
      · rw [if_neg h, if_neg (by simpa using h)]
        omega

theorem nodup_of_length_le_one {α : Type} : ∀ l : List α, l.length ≤ 1 → l.Nodup
  | [], _ => List.nodup_nil
  | [a], _ => List.nodup_singleton a
  | a :: b :: t, h => by simp at h

theorem mem_sha_innerMerge (pr : List PrRow) (rm : List RMCommitRow)
    (r : HumanCommitRow) (hr : r ∈ innerMergeHuman pr rm) : ∃ p ∈ pr, r.sha = p.sha := by
  rw [innerMergeHuman] at hr
  rcases List.mem_flatMap.mp hr with ⟨p, hp, hrp⟩
  rcases List.mem_map.mp hrp with ⟨q, _, hqr⟩
  exact ⟨p, hp, by rw [← hqr]⟩

theorem nodup_sha_innerMerge (rm : List RMCommitRow)
    (hrm : (rm.map (fun r => r.sha)).Nodup) :
    ∀ pr : List PrRow, (pr.map (fun p => p.sha)).Nodup →
      ((innerMergeHuman pr rm).map (fun r => r.sha)).Nodup := by
  intro pr
  induction pr with
  | nil => intro _; simp [innerMergeHuman]
  | cons p pr ih =>
      intro hpr
      simp only [List.map_cons, List.nodup_cons] at hpr
      rw [innerMergeHuman_cons, List.map_append]
      refine List.nodup_append.mpr ⟨?_, ih hpr.2, ?_⟩
      · refine nodup_of_length_le_one _ ?_
        rw [List.length_map, List.length_map]
        exact length_filter_le_one_of_nodup_map (fun r : RMCommitRow => r.sha)
          rm hrm p.sha
      · intro x hx1 hx2
        rcases List.mem_map.mp hx1 with ⟨y, hy1, hy2⟩
        rcases List.mem_map.mp hy1 with ⟨q, _, hq2⟩
        have hxp : x = p.sha := by rw [← hy2, ← hq2]
        rcases List.mem_map.mp hx2 with ⟨z, hz1, hz2⟩
        rcases mem_sha_innerMerge pr rm z hz1 with ⟨p2, hp2, hzp2⟩
        refine hpr.1 ?_
        have hpp2 : p.sha = p2.sha := by rw [← hxp, ← hz2, hzp2]
        rw [hpp2]
        exact List.mem_map.mpr ⟨p2, hp2, rfl⟩

theorem dedupHuman_eq_self (rows : List HumanCommitRow)
    (h : (rows.map (fun r => r.sha)).Nodup) : dedupHumanByKey rows = rows := by
  apply dropDuplicatesBy_eq_self_of_nodup
  have hrw : rows.map (fun r => r.sha)
      = (rows.map (fun r => (r.sha, r.pr_id, r.agent))).map Prod.fst := by
    rw [List.map_map]
    rfl
  rw [hrw] at h
  exact h.of_map

theorem exists_pos_of_sumCountsRm (s : String) :
    ∀ rm : List RMCommitRow, 0 < sumCountsRm rm s →
      ∃ r ∈ rm, r.sha = s ∧ 0 < r.refactoring_count := by
  intro rm
  induction rm with
  | nil => intro h; simp [sumCountsRm] at h
  | cons r t ih =>
      intro h
      rw [sumCountsRm, List.filter_cons] at h
      by_cases hrs : r.sha = s
      · rw [if_pos (by simpa using hrs)] at h
        simp only [List.map_cons, List.sum_cons] at h
        by_cases hc : 0 < r.refactoring_count
        · exact ⟨r, List.mem_cons_self _ _, hrs, hc⟩
        · have hz : r.refactoring_count = 0 := by omega
          rw [hz] at h
          rcases ih (by simpa [sumCountsRm] using h) with ⟨x, hx, hxs, hxc⟩
          exact ⟨x, List.mem_cons_of_mem _ hx, hxs, hxc⟩
      · rw [if_neg (by simpa using hrs)] at h
        rcases ih (by simpa [sumCountsRm] using h) with ⟨x, hx, hxs, hxc⟩
        exact ⟨x, List.mem_cons_of_mem _ hx, hxs, hxc⟩

theorem has_eq_count_pos_buildRm (doc : List RMEntry) (r : RMCommitRow)
    (hr : r ∈ buildRmCommits doc) :
    r.has_refactoring = decide (0 < r.refactoring_count) := by
  rcases List.mem_filterMap.mp hr with ⟨c, _, hrec⟩
  rw [rmEntryRecord] at hrec
  by_cases h : normSha c.sha1 = ""
  · rw [if_pos h] at hrec
    cases hrec
  · rw [if_neg h] at hrec
    cases hrec
    rfl

/-- Claim C3 counterexample: the tool output reports one refactoring for
commit "a", but "a" is not in the candidate metadata table, so the inner
merge drops its commit row while its event row is kept in the event table -
the sum of refactoring_count over the commit rows of the group "a" is 0 yet
the group holds 1 event, and that event references no commit row at all.
(build_baseline_dataset.py lines 66-129: `ref_df` is written unfiltered
while `merged` keeps only candidate commits.) -/
theorem conservation_counterexample :
    sumCounts (humanCommitsTable [] [⟨"a", ["Extract Method"]⟩]) "a" = 0
    ∧ countEvents (buildRefRows [⟨"a", ["Extract Method"]⟩]) "a" = 1 := by
  decide

/-- Claim C3 amended: conservation holds for the commit identifiers that the
commit table can retain: when the normalizer rows have pairwise distinct
identifiers, the candidate identifiers are pairwise distinct, and the group
identifier belongs to the candidate table, then the sum of
refactoring_count over the commit rows of that group equals the number of
event rows of that group, and whenever the group has an event, the commit row
of the group exists and carries has_refactoring = true.  Events of commits
outside the candidate table survive in the event table with no commit row
(see the counterexample). -/
theorem conservation_amended (prRaw : List PrRow) (doc : List RMEntry)
    (hdoc : ((buildRmCommits doc).map (fun r => r.sha)).Nodup)
    (hpr : ((normalizePrTable prRaw).map (fun p => p.sha)).Nodup)
    (s : String) (hs : ∃ p ∈ normalizePrTable prRaw, p.sha = s) :
    sumCounts (humanCommitsTable prRaw doc) s = countEvents (buildRefRows doc) s
    ∧ (0 < countEvents (buildRefRows doc) s →
        ∃ r ∈ humanCommitsTable prRaw doc, r.sha = s ∧ r.has_refactoring = true) := by
  have hded : dropDuplicatesBy (fun r : RMCommitRow => r.sha) (buildRmCommits doc)
      = buildRmCommits doc := dropDuplicatesBy_eq_self_of_nodup _ _ hdoc
  have hnodupm := nodup_sha_innerMerge (buildRmCommits doc) hdoc
    (normalizePrTable prRaw) hpr
  have htable : humanCommitsTable prRaw doc
      = innerMergeHuman (normalizePrTable prRaw) (buildRmCommits doc) := by
    rw [humanCommitsTable, hded, dedupHuman_eq_self _ hnodupm]
  rcases hs with ⟨p, hp, hps⟩
  have hlen : ((normalizePrTable prRaw).filter (fun q => q.sha = s)).length = 1 := by
    have h1 : ((normalizePrTable prRaw).filter (fun q => q.sha = p.sha)).length = 1 :=
      length_filter_eq_one_of_nodup_map (fun q : PrRow => q.sha)
        (normalizePrTable prRaw) hpr p hp
    rw [hps] at h1
    exact h1
  constructor
  · rw [htable, sumCounts_innerMerge, hlen, one_mul, sumCountsRm_buildRmCommits]
  · intro hpos
    have hposrm : 0 < sumCountsRm (buildRmCommits doc) s := by
      rwa [sumCountsRm_buildRmCommits]
    rcases exists_pos_of_sumCountsRm s _ hposrm with ⟨q, hq, hqs, hqc⟩
    have hhas : q.has_refactoring = true := by
      rw [has_eq_count_pos_buildRm doc q hq]
      simpa using hqc
    refine ⟨⟨p.sha, p.pr_id, p.full_name, q.refactoring_count, q.unique_types,
        q.has_refactoring, "Human"⟩, ?_, hps, hhas⟩
    rw [htable, innerMergeHuman]
    refine List.mem_flatMap.mpr ⟨p, hp, ?_⟩
    refine List.mem_map.mpr ⟨q, ?_, rfl⟩
    refine List.mem_filter.mpr ⟨hq, ?_⟩
    simp only [decide_eq_true_eq]
    rw [hqs, hps]

/-- Witness for C3 at a concrete input: candidate "a", tool output with two
refactorings for "a"; the commit-row sum and the event count both equal 2. -/
theorem conservation_witness :
    sumCounts (humanCommitsTable [⟨"a", 1, "n"⟩] [⟨"a", ["T", "U"]⟩]) "a"
      = countEvents (buildRefRows [⟨"a", ["T", "U"]⟩]) "a" :=
  (conservation_amended [⟨"a", 1, "n"⟩] [⟨"a", ["T", "U"]⟩] (by decide) (by decide)
    "a" ⟨⟨"a", 1, "n"⟩, by decide, by decide⟩).1
